import Mathlib

/-!
# NomadSync — Location Extraction & Route Resolution Pipeline

Shallow embedding of the pipeline's pure logic, translated from the
repository source:

* `src/components/Planner.tsx` — `extractLocations` with its nested
  `isValidLocation` helper and the canonical-reorder phase;
* `src/components/ItineraryBuilder.tsx` (the `RouteMap` component) —
  `cleanLocations`, `loadRoute`/`tryRoute`, `showMarkersOnly` and
  `createRouteMapUrl`.

JavaScript string primitives (`trim`, `toLowerCase`, `includes`,
`startsWith`, the regular expressions actually used, and
`encodeURIComponent`) are modelled explicitly below.  The model works
with Lean `Char`s (Unicode scalar values); the source operates on
UTF-16 code units, which agrees on every string the repository code
can actually see except for characters beyond the basic multilingual
plane inside `.length` counts — a divergence irrelevant to the claims.
Asynchronous geocoding is modelled by an explicit completion order:
a list of slot indices, one per settled lookup, folded over the
component's mutable state.
-/

namespace NomadSync

/-! ## JavaScript string primitives -/

/-- Code points treated as whitespace by JavaScript `trim` and `\s`
(WhiteSpace and LineTerminator productions). -/
def jsWhitespaceCodes : List Nat :=
  [9, 10, 11, 12, 13, 32, 160, 0x1680,
   0x2000, 0x2001, 0x2002, 0x2003, 0x2004, 0x2005, 0x2006, 0x2007,
   0x2008, 0x2009, 0x200A, 0x2028, 0x2029, 0x202F, 0x205F, 0x3000, 0xFEFF]

def isJsSpace (c : Char) : Bool := jsWhitespaceCodes.contains c.toNat

/-- Drop whitespace from both ends of a character list. -/
def jsTrimList (l : List Char) : List Char :=
  ((l.dropWhile isJsSpace).reverse.dropWhile isJsSpace).reverse

/-- JavaScript `String.prototype.trim`. -/
def jsTrim (s : String) : String := String.mk (jsTrimList s.toList)

/-- Does `pat` occur in `cs` as a contiguous run? -/
def infixAux (pat : List Char) : List Char → Bool
  | [] => pat.isEmpty
  | c :: rest => pat.isPrefixOf (c :: rest) || infixAux pat rest

/-- JavaScript `String.prototype.includes` (substring containment). -/
def strContains (s pat : String) : Bool := infixAux pat.toList s.toList

/-- JavaScript `String.prototype.toLowerCase`, character by character.
(ASCII case mapping; every comparison string in the source is ASCII.) -/
def jsToLower (s : String) : String := String.mk (s.toList.map Char.toLower)

/-- JavaScript `String.prototype.startsWith`. -/
def strStartsWith (s pre : String) : Bool := pre.toList.isPrefixOf s.toList

/-- `Array.prototype.join(sep)` over strings. -/
def joinSep (sep : String) (parts : List String) : String :=
  String.mk (((parts.map String.toList).intersperse sep.toList).flatten)

/-- JavaScript `\w` word character: `[A-Za-z0-9_]`. -/
def isWordChar (c : Char) : Bool := c.isAlpha || c.isDigit || c == '_'

/-! ### `encodeURIComponent`

ECMA-262 `encodeURIComponent`: characters outside
`ALPHA / DIGIT / - _ . ! ~ * ' ( )` are replaced by the `%XX`
(uppercase hex) encoding of their UTF-8 bytes. -/

def hexDigitChar (n : Nat) : Char :=
  if n < 10 then Char.ofNat (48 + n) else Char.ofNat (55 + n)

def percentEncodeByte (b : Nat) : List Char :=
  [Char.ofNat 37, hexDigitChar (b / 16), hexDigitChar (b % 16)]

def utf8Bytes (c : Char) : List Nat :=
  let n := c.toNat
  if n < 128 then [n]
  else if n < 2048 then [192 + n / 64, 128 + n % 64]
  else if n < 65536 then [224 + n / 4096, 128 + (n / 64) % 64, 128 + n % 64]
  else [240 + n / 262144, 128 + (n / 4096) % 64, 128 + (n / 64) % 64, 128 + n % 64]

def uriUnreservedMarks : List Char :=
  ['-', '_', '.', '!', '~', '*', Char.ofNat 39, '(', ')']

def isUriUnreserved (c : Char) : Bool :=
  c.isAlpha || c.isDigit || uriUnreservedMarks.contains c

def encodeURIComponent (s : String) : String :=
  String.mk
    ((s.toList.map (fun c =>
      if isUriUnreserved c then [c]
      else ((utf8Bytes c).map percentEncodeByte).flatten)).flatten)

/-! ### The regular expressions used by the pipeline

Each regex of the source is compiled by hand into a decidable matcher.
All of them are backtracking-free because every adjacent pair of
sub-patterns has disjoint character classes, so a greedy
`takeWhile`/`dropWhile` parse computes exactly the regex semantics. -/

/-- `/^(route|scenic|stops?|waypoint|destination|origin)$/i.test(s)` -/
def matchesExactDescriptive (s : String) : Bool :=
  ["route", "scenic", "stop", "stops", "waypoint",
   "destination", "origin"].contains (jsToLower s)

/-- The alternatives of `\b(route|scenic|stops?|waypoint)\b`, lowercased. -/
def tokenWords : List String := ["route", "scenic", "stops", "stop", "waypoint"]

def matchesTokenAt (cs : List Char) : Bool :=
  tokenWords.any (fun w =>
    let wl := w.toList
    cs.take wl.length == wl &&
      (match cs.drop wl.length with
       | [] => true
       | c :: _ => !isWordChar c))

def boundaryBefore : Option Char → Bool
  | none => true
  | some c => !isWordChar c

def hasWordTokenAux : Option Char → List Char → Bool
  | _, [] => false
  | prev, c :: rest =>
    (boundaryBefore prev && matchesTokenAt (c :: rest)) || hasWordTokenAux (some c) rest

/-- `/\b(route|scenic|stops?|waypoint)\b/i.test(s)` -/
def hasWordToken (s : String) : Bool := hasWordTokenAux none (jsToLower s).toList

/-- Parses `-?\d+\.?\d*` at the front of the list; returns the rest on success. -/
def parseNumPart (cs : List Char) : Option (List Char) :=
  let cs := match cs with
    | '-' :: t => t
    | _ => cs
  if (cs.takeWhile Char.isDigit).isEmpty then none
  else
    let cs := cs.dropWhile Char.isDigit
    let cs := match cs with
      | '.' :: t => t
      | _ => cs
    some (cs.dropWhile Char.isDigit)

/-- `/^-?\d+\.?\d*,\s*-?\d+\.?\d*$/.test(s)` — the bare "lat,lng" pattern. -/
def matchCoord (s : String) : Bool :=
  match parseNumPart s.toList with
  | none => false
  | some cs =>
    match cs with
    | ',' :: cs =>
      (match parseNumPart (cs.dropWhile isJsSpace) with
       | some [] => true
       | _ => false)
    | _ => false

/-- One attempt of `/\d+\.\s+\*\*([^*]+)\*\*/` anchored at the head of `cs`;
on success returns the capture and the suffix after the whole match. -/
def p1MatchAt (cs : List Char) : Option (String × List Char) :=
  if (cs.takeWhile Char.isDigit).isEmpty then none
  else
    match cs.dropWhile Char.isDigit with
    | '.' :: rest1 =>
      if (rest1.takeWhile isJsSpace).isEmpty then none
      else
        match rest1.dropWhile isJsSpace with
        | '*' :: '*' :: rest2 =>
          let cap := rest2.takeWhile (fun c => c != '*')
          if cap.isEmpty then none
          else
            match rest2.dropWhile (fun c => c != '*') with
            | '*' :: '*' :: rest3 => some (String.mk cap, rest3)
            | _ => none
        | _ => none
    | _ => none

/-- The global-flag scan of pattern 1 (`regex.exec` loop): leftmost matches,
non-overlapping, resuming after each match.  `fuel` bounds the scan; it is
called with the length of the text, which suffices because every step
consumes at least one character. -/
def scanP1 : Nat → List Char → List String
  | 0, _ => []
  | _ + 1, [] => []
  | fuel + 1, c :: rest =>
    match p1MatchAt (c :: rest) with
    | some (cap, after) => cap :: scanP1 fuel after
    | none => scanP1 fuel rest

/-- One attempt of `/\*\*([^*:]+):\*\*/` anchored at the head of `cs`. -/
def p2MatchAt (cs : List Char) : Option (String × List Char) :=
  match cs with
  | '*' :: '*' :: rest =>
    let cap := rest.takeWhile (fun c => c != '*' && c != ':')
    if cap.isEmpty then none
    else
      match rest.dropWhile (fun c => c != '*' && c != ':') with
      | ':' :: '*' :: '*' :: rest2 => some (String.mk cap, rest2)
      | _ => none
  | _ => none

/-- The global-flag scan of pattern 2. -/
def scanP2 : Nat → List Char → List String
  | 0, _ => []
  | _ + 1, [] => []
  | fuel + 1, c :: rest =>
    match p2MatchAt (c :: rest) with
    | some (cap, after) => cap :: scanP2 fuel after
    | none => scanP2 fuel rest

/-! ## Location Extractor — `Planner.tsx` `extractLocations` -/

/-- Words/phrases that are NOT location names (Planner.tsx lines 41-45,
also repeated at ItineraryBuilder.tsx lines 281-285). -/
def invalidLocationWords : List String :=
  ["route", "scenic stops", "scenic stop", "stops", "stop",
   "waypoint", "destination", "origin", "start", "end",
   "directions", "map", "location", "place", "places"]

/-- Planner.tsx `isValidLocation` (lines 48-63).  Note that the two
regular expressions are tested against `loc` itself, not `lower`. -/
def isValidLocation (loc : String) : Bool :=
  let lower := jsTrim (jsToLower loc)
  if lower.length < 2 then false
  else if invalidLocationWords.contains lower then false
  else if invalidLocationWords.any (fun word =>
      lower == word || strContains lower (" " ++ word) ||
        strStartsWith lower (word ++ " ")) then false
  else if matchesExactDescriptive loc then false
  else if hasWordToken loc then false
  else true

/-- `location.replace(/[:;]$/, '')`: drop a single trailing colon/semicolon. -/
def stripTrailingColonSemi (s : String) : String :=
  match s.toList.getLast? with
  | some c => if c == ':' || c == ';' then String.mk s.toList.dropLast else s
  | none => s

/-- The push performed by both extraction loops:
`if (cand && isValidLocation(cand) && !locations.includes(cand)) locations.push(cand)`. -/
def addCandidate (locs : List String) (cand : String) : List String :=
  if cand != "" && isValidLocation cand && !locs.contains cand then locs ++ [cand]
  else locs

/-- The hardcoded SF→LA corridor reference sequence (Planner.tsx lines 92-95). -/
def locationOrder : List String :=
  ["San Francisco", "SF", "Monterey", "Carmel", "Carmel-by-the-Sea",
   "Big Sur", "Bixby Bridge", "San Simeon", "Hearst Castle",
   "Morro Bay", "Pismo Beach", "Santa Barbara", "Malibu",
   "Los Angeles", "LA"]

/-- The `find` predicate of the reorder phase (Planner.tsx lines 99-103):
case-insensitive equality or one of the two alias special cases. -/
def canonicalMatch (loc l : String) : Bool :=
  jsToLower l == jsToLower loc ||
    (loc == "SF" && l == "San Francisco") ||
    (loc == "LA" && l == "Los Angeles")

/-- The canonical-reorder phase (Planner.tsx lines 90-117): walk the
reference sequence appending any input entry the predicate finds, then
append the input entries not already present. -/
def reorderLocations (locations : List String) : List String :=
  let ordered := locationOrder.foldl (fun acc loc =>
    match locations.find? (canonicalMatch loc) with
    | some found => acc ++ [found]
    | none => acc) ([] : List String)
  locations.foldl (fun acc l => if acc.contains l then acc else acc ++ [l]) ordered

/-- Planner.tsx `extractLocations` (lines 37-120): run pattern 1, then
pattern 2, pushing validated candidates in first-seen order, then the
canonical-reorder phase when anything was found. -/
def extractLocations (text : String) : List String :=
  let cs := text.toList
  let afterP1 := (scanP1 cs.length cs).foldl
    (fun locs m => addCandidate locs (jsTrim (stripTrailingColonSemi (jsTrim m)))) []
  let locations := (scanP2 cs.length cs).foldl
    (fun locs m => addCandidate locs (jsTrim m)) afterP1
  if 0 < locations.length then reorderLocations locations else locations

/-! ## Route Resolution Engine — `ItineraryBuilder.tsx` (`RouteMap`) -/

/-- One step of `cleanLocations` (ItineraryBuilder.tsx lines 274-326).
The accumulator carries the `cleaned` array and the `seen` set (modelled
as the list of normalized strings added so far). -/
def cleanLocationsStep (acc : List String × List String) (loc : String) :
    List String × List String :=
  let (cleaned, seen) := acc
  let trimmed := jsTrim loc
  if matchCoord trimmed then acc
  else if trimmed.length < 2 then acc
  else
    let lowerTrimmed := (jsToLower trimmed)
    if invalidLocationWords.any (fun word =>
        lowerTrimmed == word || strContains lowerTrimmed (" " ++ word) ||
          strStartsWith lowerTrimmed (word ++ " ")) then acc
    else if matchesExactDescriptive trimmed then acc
    else if hasWordToken trimmed then acc
    else
      let normalized := (jsToLower trimmed)
      if normalized != "" && !seen.contains normalized then
        (cleaned ++ [trimmed], seen ++ [normalized])
      else acc

/-- `cleanLocations`: re-validate and deduplicate the incoming
`locations` prop. -/
def cleanLocations (locations : List String) : List String :=
  (locations.foldl cleanLocationsStep ([], [])).1

/-! ### The geocoded-points tier (`showMarkersOnly`)

`showMarkersOnly` issues one geocoder lookup per cleaned location; the
callbacks complete in arbitrary order.  We model a completion schedule
as a list of slot indices (a permutation of `range n` when every
lookup settles exactly once) and fold the callback body over it.
Coordinates are exact integers: the claims are about ordering and
distinctness, never about geographic arithmetic. -/

structure LatLng where
  lat : Int
  lng : Int
deriving DecidableEq, Repr

/-- Marker role, abstracting the color/size assignment of the source
(`#22c55e`/20px at index 0, `#ef4444`/20px at index length-1,
`#3b82f6`/16px otherwise). -/
inductive StopRole
  | origin
  | intermediate
  | destination
deriving DecidableEq, Repr

/-- `index === 0 ? green : index === length - 1 ? red : blue`
(ItineraryBuilder.tsx lines 597-598). -/
def roleOfIndex (i n : Nat) : StopRole :=
  if i = 0 then .origin else if i = n - 1 then .destination else .intermediate

structure RouteMarker where
  title : String
  position : LatLng
  role : StopRole
deriving DecidableEq, Repr

/-- A `google.maps.LatLngBounds` that has absorbed at least one point.
(Longitude anti-meridian wrapping is ignored; no claim depends on it.) -/
structure LatBounds where
  south : Int
  north : Int
  west : Int
  east : Int
deriving DecidableEq, Repr

/-- `bounds.extend(position)`; `none` is the freshly-constructed empty
bounds. -/
def extendBounds : Option LatBounds → LatLng → Option LatBounds
  | none, p => some ⟨p.lat, p.lat, p.lng, p.lng⟩
  | some b, p => some ⟨min b.south p.lat, max b.north p.lat,
                       min b.west p.lng, max b.east p.lng⟩

def boundsContains (ob : Option LatBounds) (p : LatLng) : Bool :=
  match ob with
  | none => false
  | some b =>
    decide (b.south ≤ p.lat) && decide (p.lat ≤ b.north) &&
      decide (b.west ≤ p.lng) && decide (p.lng ≤ b.east)

/-- What the finalization branch of the geocode callback publishes:
the gap-free position list, the markers, the synthesized polyline,
and whether `map.fitBounds` was invoked. -/
structure FinalView where
  orderedPositions : List LatLng
  orderedMarkers : List RouteMarker
  polyline : Option (List LatLng)
  bound : Option LatBounds
  fitted : Bool
deriving DecidableEq, Repr

/-- The mutable state owned by one `showMarkersOnly` invocation:
`geocodeCount`, the two index-addressed slot arrays, the shared
`bounds`, and the published result (none until finalization). -/
structure GeoState where
  geocodeCount : Nat
  positionsByIndex : List (Option LatLng)
  markersByIndex : List (Option RouteMarker)
  bound : Option LatBounds
  finalized : Option FinalView
deriving DecidableEq, Repr

def initGeoState (n : Nat) : GeoState :=
  ⟨0, List.replicate n none, List.replicate n none, none, none⟩

/-- The finalization block (ItineraryBuilder.tsx lines 610-628),
computed from the state after the last callback's own writes.
On the empty bounds Google's sentinel corners have unequal latitudes,
so the `none` case of `fitted` is `true`; no claim exercises it. -/
def mkFinalView (s : GeoState) : FinalView :=
  let orderedPositions := s.positionsByIndex.filterMap id
  { orderedPositions := orderedPositions
    orderedMarkers := s.markersByIndex.filterMap id
    polyline := if orderedPositions.length > 1 then some orderedPositions else none
    bound := s.bound
    fitted := match s.bound with
      | some b => b.north != b.south
      | none => true }

/-- The geocoder callback for slot `i` (ItineraryBuilder.tsx lines
590-630): bump the counter; on success extend the bounds and write the
position and marker into slot `i`; when the counter reaches the list
length, finalize. -/
def geocodeCallback (locations : List String) (outcomes : List (Option LatLng))
    (s : GeoState) (i : Nat) : GeoState :=
  let n := locations.length
  let count := s.geocodeCount + 1
  let s' :=
    match outcomes.getD i none with
    | some p =>
      { s with
        geocodeCount := count
        positionsByIndex := s.positionsByIndex.set i (some p)
        markersByIndex := s.markersByIndex.set i
          (some { title := locations.getD i "", position := p, role := roleOfIndex i n })
        bound := extendBounds s.bound p }
    | none => { s with geocodeCount := count }
  if count = n then { s' with finalized := some (mkFinalView s') } else s'

/-- Run the geocoded-points tier: `outcomes` gives each slot's lookup
result, `order` the sequence in which the callbacks fire. -/
def showMarkersOnly (locations : List String) (outcomes : List (Option LatLng))
    (order : List Nat) : GeoState :=
  order.foldl (geocodeCallback locations outcomes) (initGeoState locations.length)

/-! ### The full-route tier (`loadRoute` / `tryRoute`) -/

inductive DirectionsStatus
  | OK
  | NOT_FOUND
  | ZERO_RESULTS
  | INVALID_REQUEST
  | UNKNOWN_ERROR
deriving DecidableEq, Repr

/-- The request object built inside `tryRoute` (ItineraryBuilder.tsx
lines 423-433).  `waypoints` lists the waypoint location names (every
entry is sent with `stopover: true`); the source leaves the field unset
when the list is empty, which is equivalent to sending `[]`. -/
structure DirectionsRequest where
  origin : String
  destination : String
  travelMode : String
  optimizeWaypoints : Bool
  waypoints : List String
deriving DecidableEq, Repr

/-- `const maxWaypoints = 25` — the provider maximum. -/
def maxWaypoints : Nat := 25

/-- `cleanLocations.slice(1, -1).slice(0, maxWaypoints)`. -/
def limitedWaypoints (cleanLocs : List String) : List String :=
  ((cleanLocs.drop 1).dropLast).take maxWaypoints

/-- The single request `tryRoute` passes to `directionsService.route`. -/
def tryRouteRequest (cleanLocs : List String) : DirectionsRequest :=
  { origin := cleanLocs.headD ""
    destination := cleanLocs.getLastD ""
    travelMode := "DRIVING"
    optimizeWaypoints := false
    waypoints := limitedWaypoints cleanLocs }

/-- The multi-stop route requests issued by one `loadRoute` run:
`tryRoute(false)` is called exactly once, and only on a list of
length ≥ 2. -/
def issuedRequests (cleanLocs : List String) : List DirectionsRequest :=
  if 2 ≤ cleanLocs.length then [tryRouteRequest cleanLocs] else []

/-- What `loadRoute` does next, as a function of the provider status. -/
inductive RouteAction
  | renderRoute (req : DirectionsRequest)
  | markersFallback (req : DirectionsRequest)
  | singleLocation (loc : String)
  | noAction
deriving DecidableEq, Repr

/-- `loadRoute` (ItineraryBuilder.tsx lines 399-539): with ≥ 2 cleaned
locations issue the one request and, on any non-OK status, fall through
to `showMarkersOnly`; with exactly 1, geocode that single location. -/
def loadRoute (cleanLocs : List String) (status : DirectionsStatus) : RouteAction :=
  if 2 ≤ cleanLocs.length then
    if status = DirectionsStatus.OK then .renderRoute (tryRouteRequest cleanLocs)
    else .markersFallback (tryRouteRequest cleanLocs)
  else if cleanLocs.length = 1 then .singleLocation (cleanLocs.headD "")
  else .noAction

/-! ### The fallback deep link (`createRouteMapUrl`) -/

/-- The `maps` member of a grounding chunk (types.ts): locator `uri`
and display `title` are required, the provider `placeId` optional. -/
structure MapsData where
  uri : String
  title : String
  placeId : Option String
deriving DecidableEq, Repr

/-- A structured place reference supplied with a message.  The `web`
variant is never read by the route pipeline and is omitted. -/
structure GroundingChunk where
  maps : Option MapsData
deriving DecidableEq, Repr

/-- `placeIds` (ItineraryBuilder.tsx lines 255-265): the provider
identifiers of the chunks whose `maps.placeId` is truthy. -/
def placeIds (chunks : List GroundingChunk) : List String :=
  chunks.foldl (fun ids c =>
    match c.maps with
    | some m =>
      match m.placeId with
      | some pid => if pid != "" then ids ++ [pid] else ids
      | none => ids
    | none => ids) []

/-- `c.maps?.uri` truthiness — the `find` predicate for the fallback
locator. -/
def chunkHasUri (c : GroundingChunk) : Bool :=
  match c.maps with
  | some m => m.uri != ""
  | none => false

/-- `createRouteMapUrl` (ItineraryBuilder.tsx lines 638-651). -/
def createRouteMapUrl (cleanLocs : List String) (chunks : List GroundingChunk) :
    Option String :=
  if 2 ≤ cleanLocs.length then
    some ("https://www.google.com/maps/dir/" ++
      joinSep "/" (cleanLocs.map encodeURIComponent))
  else if cleanLocs.length = 1 then
    some ("https://www.google.com/maps/search/?api=1&query=" ++
      encodeURIComponent (cleanLocs.headD ""))
  else if 0 < (placeIds chunks).length then
    match chunks.find? chunkHasUri with
    | some c =>
      match c.maps with
      | some m => if m.uri != "" then some m.uri else none
      | none => none
    | none => none
  else none

/-! ### Abstract views of the slot writes (proof infrastructure) -/

/-- What the callback for slot `i` does to a slot array whose per-index
payload is `f`: write `f i` if the lookup succeeded, else leave the
array unchanged. -/
def slotUpd {α : Type} (f : Nat → Option α) (ps : List (Option α)) (i : Nat) :
    List (Option α) :=
  match f i with
  | some p => ps.set i (some p)
  | none => ps

/-- The payload the callback writes into `positionsByIndex[i]`. -/
def posPayload (outcomes : List (Option LatLng)) (i : Nat) : Option LatLng :=
  outcomes.getD i none

/-- The payload the callback writes into `markersByIndex[i]`. -/
def markerPayload (locations : List String) (outcomes : List (Option LatLng)) (i : Nat) :
    Option RouteMarker :=
  (outcomes.getD i none).map (fun p =>
    { title := locations.getD i "", position := p, role := roleOfIndex i locations.length })

/-- The per-entry facts the `cleanLocations` guards establish for every
string they let through: the entry is its own trim, is not a bare
coordinate pair, has length ≥ 2, matches neither descriptive regex, and
trips none of the invalid-word checks. -/
def cleanEntryOk (x : String) : Prop :=
  jsTrim x = x ∧ matchCoord x = false ∧ 2 ≤ x.length ∧
    matchesExactDescriptive x = false ∧ hasWordToken x = false ∧
    invalidLocationWords.all (fun w =>
      !(jsToLower x == w || strContains (jsToLower x) (" " ++ w) ||
        strStartsWith (jsToLower x) (w ++ " "))) = true

/-! ## Theorems -/

/-- C3 (code bug): on the text `1. **San Francisco**` the extractor
returns the same stop twice.  The reorder phase finds "San Francisco"
at the reference entry `'San Francisco'` and again at the alias entry
`'SF'` (whose predicate special-cases `l === 'San Francisco'`), and no
match is ever marked consumed, so the spec's no-duplicates invariant is
violated by a single mention of a single place. -/
theorem extractLocations_duplicate_bug :
    extractLocations "1. **San Francisco**" = ["San Francisco", "San Francisco"] ∧
    ¬ (extractLocations "1. **San Francisco**").Pairwise
        (fun a b => jsToLower a ≠ jsToLower b) := by
  constructor
  · rfl
  · decide

/-- C4 (code bug): the canonical-reorder phase does not mark matches
consumed, so with input `["Los Angeles", "San Francisco", "Monterey"]`
the full names match both their own reference entries and the
`'SF'`/`'LA'` alias entries, and the output duplicates both endpoints
instead of being `["San Francisco", "Monterey", "Los Angeles"]`. -/
theorem reorderLocations_alias_duplicate_bug :
    reorderLocations ["Los Angeles", "San Francisco", "Monterey"]
      = ["San Francisco", "San Francisco", "Monterey", "Los Angeles", "Los Angeles"] := by
  rfl

/-- C5 counterexample: the extractor's validity filter does not reject
bare coordinate candidates — `"3, 4"` matches the coordinate pattern yet
is returned — and it misses a stop word that is a standalone token
adjacent to punctuation — `"End."` contains the stop word `"end"` as a
standalone token yet is returned.  (Coordinate rejection exists only in
the Route Resolution Engine's `cleanLocations`, not in the extractor.) -/
theorem extractor_filter_counterexample :
    matchCoord "3, 4" = true ∧
    extractLocations "1. **3, 4**" = ["3, 4"] ∧
    "end" ∈ invalidLocationWords ∧
    extractLocations "1. **End.**" = ["End."] :=
  ⟨rfl, rfl, by decide, rfl⟩

/-- C2 counterexample: for places `["A", "B", "C"]` where A's lookup
fails and B, C succeed, the first resolved stop B is tagged
intermediate, not origin: roles come from the original slot index, they
are not recomputed after omission as the claim states. -/
theorem geocodedPoints_role_counterexample :
    ((showMarkersOnly ["A", "B", "C"] [none, some ⟨1, 1⟩, some ⟨2, 2⟩] [0, 1, 2]).finalized.map
        (fun fv => fv.orderedMarkers.map (fun m => (m.title, m.role))))
      = some [("B", StopRole.intermediate), ("C", StopRole.destination)] := by
  rfl

/-- C9 counterexample: two resolved stops with distinct coordinates but
equal latitude — `(0,0)` and `(0,1)` — skip viewport fitting, because
the source compares only the latitudes of the bounds corners. -/
theorem viewport_fit_counterexample :
    ((showMarkersOnly ["A", "B"] [some ⟨0, 0⟩, some ⟨0, 1⟩] [0, 1]).finalized.map
        (fun fv => (fv.orderedPositions, fv.fitted)))
      = some ([⟨0, 0⟩, ⟨0, 1⟩], false) := by
  rfl

/-- C6: when the cleaned list has more than `maxWaypoints` intermediate
stops, the one multi-stop request is still issued, with the
intermediate list truncated to its first `maxWaypoints` entries. -/
theorem waypoint_truncation (locs : List String)
    (h : maxWaypoints < ((locs.drop 1).dropLast).length) :
    issuedRequests locs = [tryRouteRequest locs] ∧
    (tryRouteRequest locs).waypoints = ((locs.drop 1).dropLast).take maxWaypoints ∧
    (tryRouteRequest locs).waypoints.length = maxWaypoints := by
  have h2 : 2 ≤ locs.length := by
    simp only [maxWaypoints, List.length_dropLast, List.length_drop] at h
    omega
  refine ⟨by simp [issuedRequests, h2], rfl, ?_⟩
  simp only [tryRouteRequest, limitedWaypoints, List.length_take]
  simp only [maxWaypoints, List.length_dropLast, List.length_drop] at h ⊢
  omega

/-- C6 witness: a 28-entry place list has 26 intermediate stops; the
request is issued with exactly the first 25 of them. -/
theorem waypoint_truncation_witness :
    maxWaypoints < (((List.replicate 28 "x").drop 1).dropLast).length ∧
    issuedRequests (List.replicate 28 "x") = [tryRouteRequest (List.replicate 28 "x")] ∧
    (tryRouteRequest (List.replicate 28 "x")).waypoints
      = ((((List.replicate 28 "x").drop 1).dropLast).take maxWaypoints) ∧
    (tryRouteRequest (List.replicate 28 "x")).waypoints.length = maxWaypoints :=
  ⟨by decide, waypoint_truncation (List.replicate 28 "x") (by decide)⟩

/-- C7: with ≥ 2 cleaned locations exactly one route request is issued,
with optimization disabled, origin the first entry and destination the
last; any non-OK status falls through to the geocoded-points tier
(`showMarkersOnly`) rather than retrying. -/
theorem fullRoute_single_request_fallback (locs : List String) (status : DirectionsStatus)
    (h2 : 2 ≤ locs.length) :
    issuedRequests locs = [tryRouteRequest locs] ∧
    (tryRouteRequest locs).optimizeWaypoints = false ∧
    (∀ o, locs.head? = some o → (tryRouteRequest locs).origin = o) ∧
    (∀ d, locs.getLast? = some d → (tryRouteRequest locs).destination = d) ∧
    (status ≠ DirectionsStatus.OK →
      loadRoute locs status = RouteAction.markersFallback (tryRouteRequest locs)) ∧
    loadRoute locs DirectionsStatus.OK = RouteAction.renderRoute (tryRouteRequest locs) := by
  refine ⟨by simp [issuedRequests, h2], rfl, ?_, ?_, ?_, ?_⟩
  · intro o ho
    simp [tryRouteRequest, List.headD_eq_head?_getD, ho]
  · intro d hd
    simp [tryRouteRequest, List.getLastD_eq_getLast?, hd]
  · intro hs
    simp [loadRoute, h2, hs]
  · simp [loadRoute, h2]

/-- C7 witness at `["A", "B"]` with status NOT_FOUND. -/
theorem fullRoute_single_request_fallback_witness :
    issuedRequests ["A", "B"] = [tryRouteRequest ["A", "B"]] ∧
    (tryRouteRequest ["A", "B"]).optimizeWaypoints = false ∧
    (tryRouteRequest ["A", "B"]).origin = "A" ∧
    (tryRouteRequest ["A", "B"]).destination = "B" ∧
    loadRoute ["A", "B"] DirectionsStatus.NOT_FOUND
      = RouteAction.markersFallback (tryRouteRequest ["A", "B"]) := by
  have h := fullRoute_single_request_fallback ["A", "B"] DirectionsStatus.NOT_FOUND (by decide)
  exact ⟨h.1, h.2.1, h.2.2.1 "A" rfl, h.2.2.2.1 "B" rfl, h.2.2.2.2.1 (by decide)⟩

/-- C8: the fallback deep link is the path-joined directions URL for
≥ 2 names, the query-parameter search URL for exactly 1 name, and for
zero names with at least one reference carrying a provider identifier,
the locator of the first reference that has one. -/
theorem createRouteMapUrl_spec (locs : List String) (chunks : List GroundingChunk) :
    (2 ≤ locs.length → createRouteMapUrl locs chunks =
      some ("https://www.google.com/maps/dir/" ++
        joinSep "/" (locs.map encodeURIComponent))) ∧
    (∀ x, locs = [x] → createRouteMapUrl locs chunks =
      some ("https://www.google.com/maps/search/?api=1&query=" ++ encodeURIComponent x)) ∧
    (locs = [] → placeIds chunks ≠ [] → ∀ c, chunks.find? chunkHasUri = some c →
      ∃ m, c.maps = some m ∧ createRouteMapUrl locs chunks = some m.uri) := by
  refine ⟨fun h => by simp [createRouteMapUrl, h], ?_, ?_⟩
  · rintro x rfl
    simp [createRouteMapUrl]
  · rintro rfl hne c hfind
    have hc := List.find?_some hfind
    have hlen : 0 < (placeIds chunks).length := List.length_pos.mpr hne
    cases hcm : c.maps with
    | none => rw [chunkHasUri, hcm] at hc; simp at hc
    | some m =>
      rw [chunkHasUri, hcm] at hc
      have hc' : ¬ m.uri = "" := by simpa using hc
      refine ⟨m, rfl, ?_⟩
      simp [createRouteMapUrl, hlen, hfind, hcm, hc']

/-- C8 witness: zero place names, one structured reference with a
provider identifier — the deep link is that reference's own locator. -/
theorem createRouteMapUrl_spec_witness :
    createRouteMapUrl []
        [{ maps := some { uri := "https://maps.app/x", title := "T", placeId := some "p1" } }]
      = some "https://maps.app/x" := by
  have h := (createRouteMapUrl_spec []
    [{ maps := some { uri := "https://maps.app/x", title := "T", placeId := some "p1" } }]).2.2
    rfl (by decide) _ rfl
  obtain ⟨m, hm, hurl⟩ := h
  cases hm
  exact hurl

/-! ### Lemmas about the geocode fan-out -/

theorem geocodeCallback_count (locations : List String) (outcomes : List (Option LatLng))
    (s : GeoState) (i : Nat) :
    (geocodeCallback locations outcomes s i).geocodeCount = s.geocodeCount + 1 := by
  unfold geocodeCallback
  cases outcomes.getD i none <;> dsimp only <;> split <;> rfl

theorem geocodeCallback_positions (locations : List String) (outcomes : List (Option LatLng))
    (s : GeoState) (i : Nat) :
    (geocodeCallback locations outcomes s i).positionsByIndex
      = slotUpd (posPayload outcomes) s.positionsByIndex i := by
  unfold geocodeCallback slotUpd posPayload
  cases outcomes.getD i none <;> dsimp only <;> split <;> rfl

theorem geocodeCallback_markers (locations : List String) (outcomes : List (Option LatLng))
    (s : GeoState) (i : Nat) :
    (geocodeCallback locations outcomes s i).markersByIndex
      = slotUpd (markerPayload locations outcomes) s.markersByIndex i := by
  unfold geocodeCallback slotUpd markerPayload
  cases outcomes.getD i none <;> dsimp only <;> split <;> rfl

theorem geocodeCallback_bound (locations : List String) (outcomes : List (Option LatLng))
    (s : GeoState) (i : Nat) :
    (geocodeCallback locations outcomes s i).bound
      = (match outcomes.getD i none with
         | some p => extendBounds s.bound p
         | none => s.bound) := by
  unfold geocodeCallback
  cases outcomes.getD i none <;> dsimp only <;> split <;> rfl

theorem foldl_callback_count (locations : List String) (outcomes : List (Option LatLng)) :
    ∀ (l : List Nat) (s : GeoState),
      (l.foldl (geocodeCallback locations outcomes) s).geocodeCount
        = s.geocodeCount + l.length := by
  intro l
  induction l with
  | nil => intro s; simp
  | cons i l ih =>
    intro s
    rw [List.foldl_cons, ih, geocodeCallback_count]
    simp
    omega

theorem foldl_callback_positions (locations : List String) (outcomes : List (Option LatLng)) :
    ∀ (l : List Nat) (s : GeoState),
      (l.foldl (geocodeCallback locations outcomes) s).positionsByIndex
        = l.foldl (slotUpd (posPayload outcomes)) s.positionsByIndex := by
  intro l
  induction l with
  | nil => intro s; rfl
  | cons i l ih =>
    intro s
    rw [List.foldl_cons, List.foldl_cons, ih, geocodeCallback_positions]

theorem foldl_callback_markers (locations : List String) (outcomes : List (Option LatLng)) :
    ∀ (l : List Nat) (s : GeoState),
      (l.foldl (geocodeCallback locations outcomes) s).markersByIndex
        = l.foldl (slotUpd (markerPayload locations outcomes)) s.markersByIndex := by
  intro l
  induction l with
  | nil => intro s; rfl
  | cons i l ih =>
    intro s
    rw [List.foldl_cons, List.foldl_cons, ih, geocodeCallback_markers]

theorem foldl_callback_bound (locations : List String) (outcomes : List (Option LatLng)) :
    ∀ (l : List Nat) (s : GeoState),
      (l.foldl (geocodeCallback locations outcomes) s).bound
        = (l.filterMap (posPayload outcomes)).foldl extendBounds s.bound := by
  intro l
  induction l with
  | nil => intro s; rfl
  | cons i l ih =>
    intro s
    rw [List.foldl_cons, ih, geocodeCallback_bound, List.filterMap_cons]
    unfold posPayload
    cases outcomes.getD i none <;> simp

theorem slotUpd_length {α : Type} (f : Nat → Option α) (ps : List (Option α)) (i : Nat) :
    (slotUpd f ps i).length = ps.length := by
  unfold slotUpd
  cases f i <;> simp

theorem foldl_slotUpd_length {α : Type} (f : Nat → Option α) :
    ∀ (l : List Nat) (ps : List (Option α)),
      (l.foldl (slotUpd f) ps).length = ps.length := by
  intro l
  induction l with
  | nil => intro ps; rfl
  | cons i l ih => intro ps; rw [List.foldl_cons, ih, slotUpd_length]

theorem foldl_slotUpd_getD {α : Type} (f : Nat → Option α) :
    ∀ (l : List Nat) (ps : List (Option α)) (j : Nat), j < ps.length →
      (l.foldl (slotUpd f) ps).getD j none
        = if j ∈ l ∧ (f j).isSome then f j else ps.getD j none := by
  intro l
  induction l with
  | nil =>
    intro ps j hj
    simp
  | cons i l ih =>
    intro ps j hj
    have hj' : j < (slotUpd f ps i).length := by rw [slotUpd_length]; exact hj
    rw [List.foldl_cons, ih _ _ hj']
    by_cases hmem : j ∈ l ∧ (f j).isSome
    · have : j ∈ i :: l ∧ (f j).isSome := ⟨List.mem_cons_of_mem _ hmem.1, hmem.2⟩
      simp only [if_pos hmem, if_pos this]
    · rw [if_neg hmem]
      by_cases hji : j = i
      · subst hji
        cases hf : f j with
        | none =>
          rw [if_neg (by simp)]
          unfold slotUpd
          rw [hf]
        | some p =>
          rw [if_pos ⟨List.mem_cons_self _ _, rfl⟩]
          unfold slotUpd
          rw [hf, List.getD_eq_getElem?_getD, List.getElem?_set, if_pos rfl, if_pos hj]
          rfl
      · have hcond : ¬ (j ∈ i :: l ∧ (f j).isSome) := by
          intro h
          rcases List.mem_cons.mp h.1 with h1 | h1
          · exact hji h1
          · exact hmem ⟨h1, h.2⟩
        rw [if_neg hcond]
        unfold slotUpd
        cases f i with
        | none => rfl
        | some p =>
          rw [List.getD_eq_getElem?_getD, List.getElem?_set,
            if_neg (fun h => hji h.symm), ← List.getD_eq_getElem?_getD]

theorem showMarkersOnly_positions (locations : List String) (outcomes : List (Option LatLng))
    (order : List Nat)
    (hlen : outcomes.length = locations.length)
    (hperm : order.Perm (List.range locations.length)) :
    (showMarkersOnly locations outcomes order).positionsByIndex = outcomes := by
  rw [showMarkersOnly, foldl_callback_positions]
  show order.foldl (slotUpd (posPayload outcomes))
    (List.replicate locations.length none) = outcomes
  apply List.ext_getElem
  · rw [foldl_slotUpd_length]
    simp [hlen]
  · intro j h1 h2
    have hjn : j < locations.length := by
      rw [foldl_slotUpd_length] at h1
      simpa using h1
    have hjrep : j < (List.replicate locations.length (none : Option LatLng)).length := by
      simpa using hjn
    rw [← List.getD_eq_getElem _ none h1, ← List.getD_eq_getElem _ none h2]
    have hgd := foldl_slotUpd_getD (posPayload outcomes) order
      (List.replicate locations.length none) j hjrep
    have hmem : j ∈ order := by
      rw [hperm.mem_iff, List.mem_range]
      exact hjn
    have hrep : (List.replicate locations.length (none : Option LatLng)).getD j none = none := by
      rw [List.getD_eq_getElem _ none hjrep, List.getElem_replicate]
    rw [hgd]
    by_cases hs : (posPayload outcomes j).isSome
    · rw [if_pos ⟨hmem, hs⟩]
      rfl
    · rw [if_neg (fun h => hs h.2), hrep]
      unfold posPayload at hs
      exact (Option.not_isSome_iff_eq_none.mp hs).symm

theorem showMarkersOnly_markers (locations : List String) (outcomes : List (Option LatLng))
    (order : List Nat)
    (hperm : order.Perm (List.range locations.length)) :
    (showMarkersOnly locations outcomes order).markersByIndex
      = (List.range locations.length).map (markerPayload locations outcomes) := by
  rw [showMarkersOnly, foldl_callback_markers]
  show order.foldl (slotUpd (markerPayload locations outcomes))
      (List.replicate locations.length none)
    = (List.range locations.length).map (markerPayload locations outcomes)
  apply List.ext_getElem
  · rw [foldl_slotUpd_length]
    simp
  · intro j h1 h2
    have hjn : j < locations.length := by
      rw [foldl_slotUpd_length] at h1
      simpa using h1
    have hjrep : j < (List.replicate locations.length (none : Option RouteMarker)).length := by
      simpa using hjn
    have hrhs : ((List.range locations.length).map (markerPayload locations outcomes))[j]
        = markerPayload locations outcomes j := by
      rw [List.getElem_map, List.getElem_range]
    rw [← List.getD_eq_getElem _ none h1]
    have hgd := foldl_slotUpd_getD (markerPayload locations outcomes) order
      (List.replicate locations.length none) j hjrep
    have hmem : j ∈ order := by
      rw [hperm.mem_iff, List.mem_range]
      exact hjn
    rw [hgd, hrhs]
    by_cases hs : (markerPayload locations outcomes j).isSome
    · rw [if_pos ⟨hmem, hs⟩]
    · rw [if_neg (fun h => hs h.2)]
      have hrep : (List.replicate locations.length (none : Option RouteMarker)).getD j none
          = none := by
        rw [List.getD_eq_getElem _ none (by simpa using hjn), List.getElem_replicate]
      rw [hrep]
      exact (Option.not_isSome_iff_eq_none.mp hs).symm

theorem foldl_callback_finalized_none (locations : List String) (outcomes : List (Option LatLng)) :
    ∀ (l : List Nat) (s : GeoState), s.finalized = none →
      s.geocodeCount + l.length < locations.length →
      (l.foldl (geocodeCallback locations outcomes) s).finalized = none := by
  intro l
  induction l with
  | nil => intro s hf _; exact hf
  | cons i l ih =>
    intro s hf hlt
    rw [List.foldl_cons]
    apply ih
    · unfold geocodeCallback
      have hne : ¬ (s.geocodeCount + 1 = locations.length) := by
        simp only [List.length_cons] at hlt
        omega
      cases outcomes.getD i none <;> dsimp only <;> rw [if_neg hne] <;> exact hf
    · rw [geocodeCallback_count]
      simp only [List.length_cons] at hlt
      omega

theorem geocodeCallback_finalize (locations : List String) (outcomes : List (Option LatLng))
    (s : GeoState) (i : Nat)
    (hc : s.geocodeCount + 1 = locations.length) :
    (geocodeCallback locations outcomes s i).finalized
      = some (mkFinalView (geocodeCallback locations outcomes s i)) := by
  unfold geocodeCallback
  cases outcomes.getD i none <;> dsimp only <;> rw [if_pos hc] <;> rfl

theorem showMarkersOnly_finalized (locations : List String) (outcomes : List (Option LatLng))
    (order : List Nat)
    (hn : 0 < locations.length) (hord : order.length = locations.length) :
    (showMarkersOnly locations outcomes order).finalized
      = some (mkFinalView (showMarkersOnly locations outcomes order)) := by
  rcases List.eq_nil_or_concat order with rfl | ⟨L, i, rfl⟩
  · simp at hord
    omega
  · rw [List.concat_eq_append] at hord ⊢
    rw [showMarkersOnly, List.foldl_append, List.foldl_cons, List.foldl_nil]
    apply geocodeCallback_finalize
    rw [foldl_callback_count]
    simp only [initGeoState]
    simp only [List.length_append, List.length_cons, List.length_nil] at hord
    omega

/-- `(range L.length).map (fun i => L.getD i d) = L`. -/
theorem map_getD_range {α : Type} (d : α) :
    ∀ L : List α, (List.range L.length).map (fun i => L.getD i d) = L := by
  intro L
  induction L with
  | nil => rfl
  | cons a L ih =>
    rw [List.length_cons, List.range_succ_eq_map, List.map_cons, List.map_map]
    simp only [List.getD_cons_zero, Function.comp_def, Nat.succ_eq_add_one,
      List.getD_cons_succ]
    rw [ih]

/-- `(range L.length).filterMap (fun i => L.getD i none) = L.filterMap id`. -/
theorem filterMap_getD_range {α : Type} :
    ∀ L : List (Option α),
      (List.range L.length).filterMap (fun i => L.getD i none) = L.filterMap id := by
  intro L
  induction L with
  | nil => rfl
  | cons o L ih =>
    rw [List.length_cons, List.range_succ_eq_map, List.filterMap_cons, List.filterMap_map]
    simp only [List.getD_cons_zero, Function.comp_def, Nat.succ_eq_add_one,
      List.getD_cons_succ]
    rw [ih]
    cases o <;> simp [List.filterMap_cons]

theorem filterMap_eq_map_of_some {α β : Type} (g : α → Option β) (h : α → β) :
    ∀ l : List α, (∀ i ∈ l, g i = some (h i)) → l.filterMap g = l.map h := by
  intro l
  induction l with
  | nil => intro _; rfl
  | cons a l ih =>
    intro hl
    rw [List.filterMap_cons, hl a (List.mem_cons_self _ _), List.map_cons,
      ih (fun i hi => hl i (List.mem_cons_of_mem _ hi))]

/-- C1: the geocoded-points tier writes every result into the slot of
the place's original list position, finalizes only once the completion
counter reaches the list length, and — for every completion order —
when all lookups succeed the finalized stop order equals the original
place-list order. -/
theorem geocodedPoints_index_stable (locations : List String) (outcomes : List (Option LatLng))
    (order : List Nat)
    (hlen : outcomes.length = locations.length)
    (hn : 0 < locations.length)
    (hperm : order.Perm (List.range locations.length))
    (hall : ∀ o ∈ outcomes, o.isSome) :
    (showMarkersOnly locations outcomes order).positionsByIndex = outcomes ∧
    (∀ k, k < order.length →
      (showMarkersOnly locations outcomes (order.take k)).finalized = none) ∧
    ∃ fv, (showMarkersOnly locations outcomes order).finalized = some fv ∧
      fv.orderedMarkers.map RouteMarker.title = locations := by
  have hord : order.length = locations.length := by
    have := hperm.length_eq
    simpa using this
  refine ⟨showMarkersOnly_positions locations outcomes order hlen hperm, ?_, ?_⟩
  · intro k hk
    apply foldl_callback_finalized_none
    · rfl
    · simp only [initGeoState, List.length_take]
      omega
  · refine ⟨mkFinalView (showMarkersOnly locations outcomes order),
      showMarkersOnly_finalized locations outcomes order hn hord, ?_⟩
    have hmk : (mkFinalView (showMarkersOnly locations outcomes order)).orderedMarkers
        = (showMarkersOnly locations outcomes order).markersByIndex.filterMap id := rfl
    rw [hmk, showMarkersOnly_markers locations outcomes order hperm,
      List.filterMap_map]
    have hsome : ∀ i ∈ List.range locations.length,
        (id ∘ markerPayload locations outcomes) i
          = some { title := locations.getD i "",
                   position := (outcomes.getD i none).getD ⟨0, 0⟩,
                   role := roleOfIndex i locations.length } := by
      intro i hi
      have hin : i < outcomes.length := by
        rw [hlen]
        exact List.mem_range.mp hi
      have : (outcomes.getD i none).isSome := by
        rw [List.getD_eq_getElem _ none hin]
        exact hall _ (List.getElem_mem hin)
      obtain ⟨p, hp⟩ := Option.isSome_iff_exists.mp this
      simp only [Function.comp_def, id, markerPayload, hp, Option.getD_some]
      rfl
    rw [filterMap_eq_map_of_some _ _ _ hsome, List.map_map]
    have : (RouteMarker.title ∘ fun i =>
        ({ title := locations.getD i "",
           position := (outcomes.getD i none).getD ⟨0, 0⟩,
           role := roleOfIndex i locations.length } : RouteMarker))
        = fun i => locations.getD i "" := rfl
    rw [this, map_getD_range]

/-- C1 witness: places `["A", "B", "C"]`, lookups for B and C settling
before A; after a strict prefix of the completions nothing is
finalized, and the finalized order is A, B, C. -/
theorem geocodedPoints_index_stable_witness :
    (showMarkersOnly ["A", "B", "C"] [some ⟨1, 1⟩, some ⟨2, 2⟩, some ⟨3, 3⟩]
        [1, 2, 0]).positionsByIndex = [some ⟨1, 1⟩, some ⟨2, 2⟩, some ⟨3, 3⟩] ∧
    (showMarkersOnly ["A", "B", "C"] [some ⟨1, 1⟩, some ⟨2, 2⟩, some ⟨3, 3⟩]
        ([1, 2, 0].take 2)).finalized = none ∧
    ∃ fv, (showMarkersOnly ["A", "B", "C"] [some ⟨1, 1⟩, some ⟨2, 2⟩, some ⟨3, 3⟩]
        [1, 2, 0]).finalized = some fv ∧
      fv.orderedMarkers.map RouteMarker.title = ["A", "B", "C"] := by
  have h := geocodedPoints_index_stable ["A", "B", "C"]
    [some ⟨1, 1⟩, some ⟨2, 2⟩, some ⟨3, 3⟩] [1, 2, 0]
    rfl (by decide) (by decide) (by decide)
  exact ⟨h.1, h.2.1 2 (by decide), h.2.2⟩

/-- C2 (amended): for every completion order, the finalized stop list
omits the failed slots entirely (no placeholder gaps) and keeps the
resolved slots in original relative order, but each marker's role comes
from the slot's original list position — slot 0 is origin, slot
length-1 is destination, everything between intermediate — rather than
being recomputed after omission.  (In the spec's example, A and C
occupy the extreme slots, so the result is still
[A(origin), C(destination)].) -/
theorem geocodedPoints_omission_roles (locations : List String)
    (outcomes : List (Option LatLng)) (order : List Nat)
    (hlen : outcomes.length = locations.length)
    (hn : 0 < locations.length)
    (hperm : order.Perm (List.range locations.length)) :
    ∃ fv, (showMarkersOnly locations outcomes order).finalized = some fv ∧
      fv.orderedMarkers = (List.range locations.length).filterMap
        (fun i => (outcomes.getD i none).map (fun p =>
          { title := locations.getD i "", position := p,
            role := roleOfIndex i locations.length })) := by
  have hord : order.length = locations.length := by
    have := hperm.length_eq
    simpa using this
  refine ⟨mkFinalView (showMarkersOnly locations outcomes order),
    showMarkersOnly_finalized locations outcomes order hn hord, ?_⟩
  have hmk : (mkFinalView (showMarkersOnly locations outcomes order)).orderedMarkers
      = (showMarkersOnly locations outcomes order).markersByIndex.filterMap id := rfl
  rw [hmk, showMarkersOnly_markers locations outcomes order hperm,
    List.filterMap_map]
  rfl

/-- C2 witness (the spec's example): `["A", "B", "C"]` with B's lookup
failing and C settling first — the finalized stops are
[A(origin), C(destination)], with no gap for B. -/
theorem geocodedPoints_omission_roles_witness :
    ∃ fv, (showMarkersOnly ["A", "B", "C"] [some ⟨1, 1⟩, none, some ⟨3, 3⟩]
        [2, 0, 1]).finalized = some fv ∧
      fv.orderedMarkers
        = [{ title := "A", position := ⟨1, 1⟩, role := StopRole.origin },
           { title := "C", position := ⟨3, 3⟩, role := StopRole.destination }] := by
  obtain ⟨fv, hfv, hm⟩ := geocodedPoints_omission_roles ["A", "B", "C"]
    [some ⟨1, 1⟩, none, some ⟨3, 3⟩] [2, 0, 1] rfl (by decide) (by decide)
  refine ⟨fv, hfv, ?_⟩
  rw [hm]
  rfl

/-! ### Lemmas about bounds accumulation -/

theorem extendBounds_contains_self (b : Option LatBounds) (p : LatLng) :
    boundsContains (extendBounds b p) p = true := by
  cases b with
  | none => simp [extendBounds, boundsContains]
  | some b =>
    simp only [extendBounds, boundsContains, Bool.and_eq_true, decide_eq_true_eq]
    omega

theorem extendBounds_contains_mono (b : Option LatBounds) (p q : LatLng)
    (h : boundsContains b p = true) : boundsContains (extendBounds b q) p = true := by
  cases b with
  | none => simp [boundsContains] at h
  | some b =>
    simp only [extendBounds, boundsContains, Bool.and_eq_true, decide_eq_true_eq] at h ⊢
    omega

theorem foldl_extendBounds_contains (pts : List LatLng) :
    ∀ (b : Option LatBounds) (p : LatLng), boundsContains b p = true →
      boundsContains (pts.foldl extendBounds b) p = true := by
  induction pts with
  | nil => intro b p h; exact h
  | cons q rest ih =>
    intro b p h
    exact ih _ _ (extendBounds_contains_mono _ _ _ h)

theorem foldl_extendBounds_mem_contains (pts : List LatLng) :
    ∀ (b : Option LatBounds) (p : LatLng), p ∈ pts →
      boundsContains (pts.foldl extendBounds b) p = true := by
  induction pts with
  | nil => intro b p h; cases h
  | cons q rest ih =>
    intro b p h
    rcases List.mem_cons.mp h with rfl | h
    · exact foldl_extendBounds_contains rest _ _ (extendBounds_contains_self b p)
    · exact ih _ _ h

theorem foldl_extendBounds_isSome (pts : List LatLng) :
    ∀ b : LatBounds, (pts.foldl extendBounds (some b)).isSome = true := by
  induction pts with
  | nil => intro b; rfl
  | cons q rest ih =>
    intro b
    rw [List.foldl_cons]
    exact ih _

theorem foldl_extendBounds_north (pts : List LatLng) :
    ∀ (b0 : Option LatBounds) (b : LatBounds), pts.foldl extendBounds b0 = some b →
      (∃ p ∈ pts, p.lat = b.north) ∨ ∃ b0', b0 = some b0' ∧ b0'.north = b.north := by
  induction pts with
  | nil =>
    intro b0 b h
    right
    exact ⟨b, h, rfl⟩
  | cons q rest ih =>
    intro b0 b h
    rw [List.foldl_cons] at h
    rcases ih _ _ h with ⟨p, hp, hlat⟩ | ⟨b1, hb1, hnorth⟩
    · exact Or.inl ⟨p, List.mem_cons_of_mem _ hp, hlat⟩
    · cases b0 with
      | none =>
        left
        refine ⟨q, List.mem_cons_self _ _, ?_⟩
        have : extendBounds none q = some ⟨q.lat, q.lat, q.lng, q.lng⟩ := rfl
        rw [this] at hb1
        cases hb1
        exact hnorth
      | some b2 =>
        have : extendBounds (some b2) q
            = some ⟨min b2.south q.lat, max b2.north q.lat,
                    min b2.west q.lng, max b2.east q.lng⟩ := rfl
        rw [this] at hb1
        cases hb1
        rcases max_choice b2.north q.lat with hmax | hmax
        · right
          refine ⟨b2, rfl, ?_⟩
          rw [← hnorth]
          exact hmax.symm
        · left
          refine ⟨q, List.mem_cons_self _ _, ?_⟩
          rw [← hnorth]
          exact hmax.symm

theorem foldl_extendBounds_south (pts : List LatLng) :
    ∀ (b0 : Option LatBounds) (b : LatBounds), pts.foldl extendBounds b0 = some b →
      (∃ p ∈ pts, p.lat = b.south) ∨ ∃ b0', b0 = some b0' ∧ b0'.south = b.south := by
  induction pts with
  | nil =>
    intro b0 b h
    right
    exact ⟨b, h, rfl⟩
  | cons q rest ih =>
    intro b0 b h
    rw [List.foldl_cons] at h
    rcases ih _ _ h with ⟨p, hp, hlat⟩ | ⟨b1, hb1, hsouth⟩
    · exact Or.inl ⟨p, List.mem_cons_of_mem _ hp, hlat⟩
    · cases b0 with
      | none =>
        left
        refine ⟨q, List.mem_cons_self _ _, ?_⟩
        have : extendBounds none q = some ⟨q.lat, q.lat, q.lng, q.lng⟩ := rfl
        rw [this] at hb1
        cases hb1
        exact hsouth
      | some b2 =>
        have : extendBounds (some b2) q
            = some ⟨min b2.south q.lat, max b2.north q.lat,
                    min b2.west q.lng, max b2.east q.lng⟩ := rfl
        rw [this] at hb1
        cases hb1
        rcases min_choice b2.south q.lat with hmin | hmin
        · right
          refine ⟨b2, rfl, ?_⟩
          rw [← hsouth]
          exact hmin.symm
        · left
          refine ⟨q, List.mem_cons_self _ _, ?_⟩
          rw [← hsouth]
          exact hmin.symm

/-- C9 (amended): after the geocoded-points tier finalizes, the bounds
contain every resolved stop, and the viewport is fitted **iff** the
resolved stops do not all share one latitude — the source compares only
the latitudes of the bounds corners, so stops distinct only in
longitude also skip fitting (not merely stops collapsing to a single
point, as the claim states). -/
theorem viewport_bounds_fit (locations : List String) (outcomes : List (Option LatLng))
    (order : List Nat)
    (hlen : outcomes.length = locations.length)
    (hn : 0 < locations.length)
    (hperm : order.Perm (List.range locations.length))
    (hres : ∃ o ∈ outcomes, o.isSome) :
    ∃ fv, (showMarkersOnly locations outcomes order).finalized = some fv ∧
      (∀ p ∈ fv.orderedPositions, boundsContains fv.bound p = true) ∧
      (fv.fitted = true ↔
        ∃ p ∈ fv.orderedPositions, ∃ q ∈ fv.orderedPositions, p.lat ≠ q.lat) := by
  have hord : order.length = locations.length := by
    have := hperm.length_eq
    simpa using this
  refine ⟨mkFinalView (showMarkersOnly locations outcomes order),
    showMarkersOnly_finalized locations outcomes order hn hord, ?_⟩
  have hpos : (mkFinalView (showMarkersOnly locations outcomes order)).orderedPositions
      = outcomes.filterMap id := by
    have : (mkFinalView (showMarkersOnly locations outcomes order)).orderedPositions
        = (showMarkersOnly locations outcomes order).positionsByIndex.filterMap id := rfl
    rw [this, showMarkersOnly_positions locations outcomes order hlen hperm]
  have hbound : (mkFinalView (showMarkersOnly locations outcomes order)).bound
      = (order.filterMap (posPayload outcomes)).foldl extendBounds none := by
    have : (mkFinalView (showMarkersOnly locations outcomes order)).bound
        = (showMarkersOnly locations outcomes order).bound := rfl
    rw [this, showMarkersOnly, foldl_callback_bound]
    rfl
  -- the multiset of points the bounds absorbed is a permutation of the
  -- resolved positions
  have hptsperm : (order.filterMap (posPayload outcomes)).Perm (outcomes.filterMap id) := by
    have h1 := hperm.filterMap (posPayload outcomes)
    have h2 : (List.range locations.length).filterMap (posPayload outcomes)
        = outcomes.filterMap id := by
      rw [← hlen]
      exact filterMap_getD_range outcomes
    rw [h2] at h1
    exact h1
  have hmemiff : ∀ p : LatLng,
      p ∈ outcomes.filterMap id ↔ p ∈ order.filterMap (posPayload outcomes) :=
    fun p => (hptsperm.mem_iff).symm
  -- at least one point resolved, hence the accumulated bounds are `some`
  obtain ⟨o, ho, hosome⟩ := hres
  obtain ⟨p0, hp0⟩ := Option.isSome_iff_exists.mp hosome
  have hp0mem : p0 ∈ outcomes.filterMap id := by
    rw [List.mem_filterMap]
    exact ⟨some p0, by rw [← hp0]; exact ho, rfl⟩
  have hptsne : order.filterMap (posPayload outcomes) ≠ [] := by
    intro hnil
    rw [hmemiff p0, hnil] at hp0mem
    cases hp0mem
  obtain ⟨b, hb⟩ : ∃ b, (order.filterMap (posPayload outcomes)).foldl extendBounds none
      = some b := by
    cases hpts : order.filterMap (posPayload outcomes) with
    | nil => exact absurd hpts hptsne
    | cons q rest =>
      have : (rest.foldl extendBounds (extendBounds none q)).isSome = true := by
        have : extendBounds none q = some ⟨q.lat, q.lat, q.lng, q.lng⟩ := rfl
        rw [this]
        exact foldl_extendBounds_isSome rest _
      obtain ⟨b, hb⟩ := Option.isSome_iff_exists.mp this
      exact ⟨b, by rw [List.foldl_cons]; exact hb⟩
  have hfit : (mkFinalView (showMarkersOnly locations outcomes order)).fitted
      = (b.north != b.south) := by
    have : (mkFinalView (showMarkersOnly locations outcomes order)).fitted
        = (match (showMarkersOnly locations outcomes order).bound with
           | some b => b.north != b.south
           | none => true) := rfl
    rw [this]
    have hsb : (showMarkersOnly locations outcomes order).bound = some b := by
      have h1 : (showMarkersOnly locations outcomes order).bound
          = (order.filterMap (posPayload outcomes)).foldl extendBounds none := by
        rw [showMarkersOnly, foldl_callback_bound]
        rfl
      rw [h1, hb]
    rw [hsb]
  constructor
  · intro p hp
    rw [hpos] at hp
    rw [hbound]
    exact foldl_extendBounds_mem_contains _ _ _ ((hmemiff p).mp hp)
  · rw [hfit, hpos]
    constructor
    · intro hne
      have hne' : b.north ≠ b.south := by simpa using hne
      have hN := foldl_extendBounds_north _ _ _ hb
      have hS := foldl_extendBounds_south _ _ _ hb
      rcases hN with ⟨pN, hpN, hlatN⟩ | ⟨b0', hb0', _⟩
      · rcases hS with ⟨pS, hpS, hlatS⟩ | ⟨b0', hb0', _⟩
        · refine ⟨pN, (hmemiff pN).mpr hpN, pS, (hmemiff pS).mpr hpS, ?_⟩
          rw [hlatN, hlatS]
          exact hne'
        · cases hb0'
      · cases hb0'
    · rintro ⟨p, hp, q, hq, hpq⟩
      have hcp : boundsContains (some b) p = true := by
        rw [← hb]
        exact foldl_extendBounds_mem_contains _ _ _ ((hmemiff p).mp hp)
      have hcq : boundsContains (some b) q = true := by
        rw [← hb]
        exact foldl_extendBounds_mem_contains _ _ _ ((hmemiff q).mp hq)
      simp only [boundsContains, Bool.and_eq_true, decide_eq_true_eq] at hcp hcq
      simp only [bne_iff_ne, ne_eq]
      intro hns
      apply hpq
      omega

/-- C9 witness: two stops with different latitudes — both are inside
the bounds and the viewport is fitted. -/
theorem viewport_bounds_fit_witness :
    ∃ fv, (showMarkersOnly ["A", "B"] [some ⟨0, 0⟩, some ⟨1, 5⟩] [1, 0]).finalized = some fv ∧
      boundsContains fv.bound ⟨0, 0⟩ = true ∧ fv.fitted = true := by
  obtain ⟨fv, hfv, hcont, hiff⟩ := viewport_bounds_fit ["A", "B"]
    [some ⟨0, 0⟩, some ⟨1, 5⟩] [1, 0] rfl (by decide) (by decide) (by decide)
  have hfv0 : fv = mkFinalView (showMarkersOnly ["A", "B"]
      [some ⟨0, 0⟩, some ⟨1, 5⟩] [1, 0]) := by
    have : (showMarkersOnly ["A", "B"] [some ⟨0, 0⟩, some ⟨1, 5⟩] [1, 0]).finalized
        = some (mkFinalView (showMarkersOnly ["A", "B"]
            [some ⟨0, 0⟩, some ⟨1, 5⟩] [1, 0])) := rfl
    rw [this] at hfv
    exact (Option.some_inj.mp hfv).symm
  refine ⟨fv, hfv, ?_, ?_⟩
  · exact hcont ⟨0, 0⟩ (by rw [hfv0]; decide)
  · refine hiff.mpr ⟨⟨0, 0⟩, by rw [hfv0]; decide, ⟨1, 5⟩, by rw [hfv0]; decide, by decide⟩

/-! ### Lemmas about the extractor's validity filter -/

theorem mem_addCandidate (locs : List String) (cand x : String)
    (h : x ∈ addCandidate locs cand) :
    x ∈ locs ∨ (x = cand ∧ isValidLocation cand = true) := by
  unfold addCandidate at h
  split at h
  · rename_i hcond
    rcases List.mem_append.mp h with h1 | h1
    · exact Or.inl h1
    · simp only [List.mem_singleton] at h1
      subst h1
      simp only [Bool.and_eq_true] at hcond
      exact Or.inr ⟨rfl, hcond.1.2⟩
  · exact Or.inl h

theorem foldl_addCandidate_valid (t : String → String) :
    ∀ (cands : List String) (acc : List String),
      (∀ y ∈ acc, isValidLocation y = true) →
      ∀ x ∈ cands.foldl (fun locs m => addCandidate locs (t m)) acc,
        isValidLocation x = true := by
  intro cands
  induction cands with
  | nil => intro acc hacc x hx; exact hacc x hx
  | cons m cands ih =>
    intro acc hacc x hx
    rw [List.foldl_cons] at hx
    refine ih _ ?_ x hx
    intro y hy
    rcases mem_addCandidate _ _ _ hy with h1 | ⟨rfl, hv⟩
    · exact hacc y h1
    · exact hv

theorem mem_reorder_phase1 (ls : List String) :
    ∀ (ords : List String) (acc : List String), (∀ y ∈ acc, y ∈ ls) →
      ∀ x ∈ ords.foldl (fun acc loc =>
          match ls.find? (canonicalMatch loc) with
          | some found => acc ++ [found]
          | none => acc) acc, x ∈ ls := by
  intro ords
  induction ords with
  | nil => intro acc hacc x hx; exact hacc x hx
  | cons loc ords ih =>
    intro acc hacc x hx
    rw [List.foldl_cons] at hx
    refine ih _ ?_ x hx
    intro y hy
    cases hf : ls.find? (canonicalMatch loc) with
    | none =>
      rw [hf] at hy
      exact hacc y hy
    | some found =>
      rw [hf] at hy
      rcases List.mem_append.mp hy with h1 | h1
      · exact hacc y h1
      · simp only [List.mem_singleton] at h1
        subst h1
        exact List.mem_of_find?_eq_some hf

theorem mem_fold_appendNew :
    ∀ (items : List String) (acc : List String),
      ∀ x ∈ items.foldl (fun acc l => if acc.contains l then acc else acc ++ [l]) acc,
        x ∈ acc ∨ x ∈ items := by
  intro items
  induction items with
  | nil => intro acc x hx; exact Or.inl hx
  | cons l items ih =>
    intro acc x hx
    rw [List.foldl_cons] at hx
    rcases ih _ x hx with h1 | h1
    · by_cases hc : acc.contains l = true
      · rw [if_pos hc] at h1
        exact Or.inl h1
      · rw [if_neg hc] at h1
        rcases List.mem_append.mp h1 with h2 | h2
        · exact Or.inl h2
        · simp only [List.mem_singleton] at h2
          exact Or.inr (h2 ▸ List.mem_cons_self _ _)
    · exact Or.inr (List.mem_cons_of_mem _ h1)

theorem mem_reorderLocations (ls : List String) (x : String)
    (h : x ∈ reorderLocations ls) : x ∈ ls := by
  simp only [reorderLocations] at h
  rcases mem_fold_appendNew ls _ x h with h1 | h1
  · exact mem_reorder_phase1 ls locationOrder [] (by intro y hy; cases hy) x h1
  · exact h1

theorem mem_extractLocations_valid (text : String) (x : String)
    (h : x ∈ extractLocations text) : isValidLocation x = true := by
  simp only [extractLocations] at h
  have hbase : ∀ y ∈ (scanP2 text.toList.length text.toList).foldl
      (fun locs m => addCandidate locs (jsTrim m))
      ((scanP1 text.toList.length text.toList).foldl
        (fun locs m => addCandidate locs (jsTrim (stripTrailingColonSemi (jsTrim m)))) []),
      isValidLocation y = true := by
    apply foldl_addCandidate_valid jsTrim
    apply foldl_addCandidate_valid (fun m => jsTrim (stripTrailingColonSemi (jsTrim m)))
    intro y hy
    cases hy
  split at h
  · exact hbase x (mem_reorderLocations _ x h)
  · exact hbase x h

/-- C5 (amended): a captured candidate is excluded from the extractor's
output whenever its normalized text is shorter than 2 characters, or
exactly equals a stop word, or contains a stop word preceded by a
space, or starts with a stop word followed by a space, or equals one of
route/scenic/stop/stops/waypoint/destination/origin outright, or
contains route/scenic/stop/stops/waypoint as a standalone token.  Bare
coordinate candidates are *not* excluded by the extractor (coordinate
rejection lives in the engine's `cleanLocations`), and a stop word
adjacent to punctuation rather than spaces escapes the filter. -/
theorem extractor_filter_excludes (loc : String)
    (h : (jsTrim (jsToLower loc)).length < 2
      ∨ (∃ w ∈ invalidLocationWords, jsTrim (jsToLower loc) = w)
      ∨ (∃ w ∈ invalidLocationWords, strContains (jsTrim (jsToLower loc)) (" " ++ w) = true)
      ∨ (∃ w ∈ invalidLocationWords, strStartsWith (jsTrim (jsToLower loc)) (w ++ " ") = true)
      ∨ matchesExactDescriptive loc = true
      ∨ hasWordToken loc = true) :
    isValidLocation loc = false ∧ ∀ text, loc ∉ extractLocations text := by
  have hval : isValidLocation loc = false := by
    simp only [isValidLocation]
    split
    · rfl
    split
    · rfl
    split
    · rfl
    split
    · rfl
    split
    · rfl
    rename_i h1 h2 h3 h4 h5
    exfalso
    rcases h with hl | ⟨w, hw, hew⟩ | ⟨w, hw, hcw⟩ | ⟨w, hw, hsw⟩ | hex | htok
    · exact h1 hl
    · apply h2
      rw [List.contains_eq_any_beq]
      exact List.any_eq_true.mpr ⟨w, hw, by rw [hew]; simp⟩
    · exact h3 (List.any_eq_true.mpr ⟨w, hw, by rw [hcw]; simp⟩)
    · exact h3 (List.any_eq_true.mpr ⟨w, hw, by rw [hsw]; simp⟩)
    · exact h4 hex
    · exact h5 htok
  refine ⟨hval, ?_⟩
  intro text hmem
  have hv := mem_extractLocations_valid text loc hmem
  rw [hval] at hv
  exact Bool.false_ne_true hv

/-- C5 witness: the stop word "Route" is rejected by the filter and
never appears in the extractor's output. -/
theorem extractor_filter_excludes_witness :
    isValidLocation "Route" = false ∧ "Route" ∉ extractLocations "1. **Route**" := by
  have h := extractor_filter_excludes "Route"
    (Or.inr (Or.inl ⟨"route", by decide, by decide⟩))
  exact ⟨h.1, h.2 "1. **Route**"⟩

/-! ### Lemmas about trimming and `cleanLocations` -/

theorem dropWhile_head_not (p : Char → Bool) :
    ∀ (l : List Char) (a : Char), (l.dropWhile p).head? = some a → p a = false := by
  intro l
  induction l with
  | nil => intro a h; cases h
  | cons c rest ih =>
    intro a h
    rw [List.dropWhile_cons] at h
    cases hpc : p c with
    | true =>
      rw [if_pos hpc] at h
      exact ih a h
    | false =>
      rw [if_neg (by simp [hpc])] at h
      simp only [List.head?_cons, Option.some_inj] at h
      subst h
      exact hpc

theorem dropWhile_getLast?_eq (p : Char → Bool) (l : List Char)
    (hne : l.dropWhile p ≠ []) : (l.dropWhile p).getLast? = l.getLast? := by
  obtain ⟨w, hw⟩ := List.dropWhile_suffix (l := l) p
  conv_rhs => rw [← hw]
  rw [List.getLast?_append]
  cases hd : (l.dropWhile p).getLast? with
  | none =>
    exfalso
    apply hne
    cases hl : l.dropWhile p with
    | nil => rfl
    | cons a t =>
      rw [hl] at hd
      rw [List.getLast?_eq_getLast _ (by simp)] at hd
      cases hd
  | some a => rfl

theorem dropWhile_eq_self_of_head (p : Char → Bool) (l : List Char)
    (h : ∀ a, l.head? = some a → p a = false) : l.dropWhile p = l := by
  cases l with
  | nil => rfl
  | cons c rest =>
    rw [List.dropWhile_cons, if_neg]
    simp [h c rfl]

theorem jsTrimList_head_not (l : List Char) (a : Char)
    (h : (jsTrimList l).head? = some a) : isJsSpace a = false := by
  unfold jsTrimList at h
  rw [List.head?_reverse] at h
  have hne : (l.dropWhile isJsSpace).reverse.dropWhile isJsSpace ≠ [] := by
    intro hnil
    rw [hnil] at h
    cases h
  rw [dropWhile_getLast?_eq _ _ hne, List.getLast?_reverse] at h
  exact dropWhile_head_not _ _ _ h

theorem jsTrimList_getLast_not (l : List Char) (a : Char)
    (h : (jsTrimList l).getLast? = some a) : isJsSpace a = false := by
  unfold jsTrimList at h
  rw [List.getLast?_reverse] at h
  exact dropWhile_head_not _ _ _ h

theorem jsTrimList_idem (l : List Char) : jsTrimList (jsTrimList l) = jsTrimList l := by
  conv_lhs => rw [jsTrimList]
  rw [dropWhile_eq_self_of_head _ _ (fun a h => jsTrimList_head_not l a h)]
  rw [dropWhile_eq_self_of_head _ _ (fun a h => by
    rw [List.head?_reverse] at h
    exact jsTrimList_getLast_not l a h)]
  exact List.reverse_reverse _

theorem jsTrim_idem (s : String) : jsTrim (jsTrim s) = jsTrim s := by
  unfold jsTrim
  have : (String.mk (jsTrimList s.toList)).toList = jsTrimList s.toList := rfl
  rw [this, jsTrimList_idem]

theorem cleanLocationsStep_cases (acc : List String × List String) (loc : String) :
    cleanLocationsStep acc loc = acc ∨
      (cleanLocationsStep acc loc = (acc.1 ++ [jsTrim loc], acc.2 ++ [jsToLower (jsTrim loc)]) ∧
        matchCoord (jsTrim loc) = false ∧ 2 ≤ (jsTrim loc).length ∧
        matchesExactDescriptive (jsTrim loc) = false ∧ hasWordToken (jsTrim loc) = false ∧
        invalidLocationWords.all (fun w =>
          !(jsToLower (jsTrim loc) == w ||
            strContains (jsToLower (jsTrim loc)) (" " ++ w) ||
            strStartsWith (jsToLower (jsTrim loc)) (w ++ " "))) = true ∧
        acc.2.contains (jsToLower (jsTrim loc)) = false) := by
  obtain ⟨cleaned, seen⟩ := acc
  simp only [cleanLocationsStep]
  split
  · exact Or.inl rfl
  split
  · exact Or.inl rfl
  split
  · exact Or.inl rfl
  split
  · exact Or.inl rfl
  split
  · exact Or.inl rfl
  split
  · rename_i hcoord hlen hany hexact htok hpush
    right
    simp only [Bool.and_eq_true, Bool.not_eq_true'] at hpush
    refine ⟨rfl, ?_, ?_, ?_, ?_, ?_, hpush.2⟩
    · exact Bool.not_eq_true _ ▸ (Bool.eq_false_iff.mpr hcoord)
    · omega
    · exact Bool.eq_false_iff.mpr hexact
    · exact Bool.eq_false_iff.mpr htok
    · rw [List.all_eq_true]
      intro w hw
      simp only [Bool.not_eq_true']
      cases hX : (jsToLower (jsTrim loc) == w ||
          strContains (jsToLower (jsTrim loc)) (" " ++ w) ||
          strStartsWith (jsToLower (jsTrim loc)) (w ++ " ")) with
      | false => rfl
      | true => exact absurd (List.any_eq_true.mpr ⟨w, hw, hX⟩) hany
  · exact Or.inl rfl

theorem cleanLocations_fold_invariant :
    ∀ (ls : List String) (acc : List String × List String),
      acc.2 = acc.1.map jsToLower →
      List.Pairwise (fun a b => jsToLower a ≠ jsToLower b) acc.1 →
      (∀ x ∈ acc.1, cleanEntryOk x) →
      (ls.foldl cleanLocationsStep acc).2
          = (ls.foldl cleanLocationsStep acc).1.map jsToLower ∧
        List.Pairwise (fun a b => jsToLower a ≠ jsToLower b)
          (ls.foldl cleanLocationsStep acc).1 ∧
        ∀ x ∈ (ls.foldl cleanLocationsStep acc).1, cleanEntryOk x := by
  intro ls
  induction ls with
  | nil => intro acc h1 h2 h3; exact ⟨h1, h2, h3⟩
  | cons loc ls ih =>
    intro acc h1 h2 h3
    rw [List.foldl_cons]
    rcases cleanLocationsStep_cases acc loc with he | ⟨he, hcoord, hlen, hex, htok, hall, hseen⟩
    · rw [he]
      exact ih acc h1 h2 h3
    · rw [he]
      have hnotmem : jsToLower (jsTrim loc) ∉ acc.1.map jsToLower := by
        intro hm
        rw [← h1] at hm
        have : acc.2.contains (jsToLower (jsTrim loc)) = true := by
          rw [List.contains_eq_any_beq, List.any_eq_true]
          exact ⟨_, hm, by simp⟩
        rw [hseen] at this
        cases this
      apply ih
      · rw [List.map_append, h1]
        rfl
      · rw [List.pairwise_append]
        refine ⟨h2, List.pairwise_singleton _ _, ?_⟩
        intro a ha b hb
        simp only [List.mem_singleton] at hb
        subst hb
        intro hab
        exact hnotmem (hab ▸ List.mem_map_of_mem jsToLower ha)
      · intro x hx
        rcases List.mem_append.mp hx with hx1 | hx1
        · exact h3 x hx1
        · simp only [List.mem_singleton] at hx1
          subst hx1
          exact ⟨jsTrim_idem loc, hcoord, hlen, hex, htok, hall⟩

theorem cleanLocations_fold_sublist :
    ∀ (ls : List String) (acc : List String × List String),
      ∃ t, (ls.foldl cleanLocationsStep acc).1 = acc.1 ++ t ∧
        t.Sublist (ls.map jsTrim) := by
  intro ls
  induction ls with
  | nil => intro acc; exact ⟨[], by simp, by simp⟩
  | cons loc ls ih =>
    intro acc
    rw [List.foldl_cons, List.map_cons]
    rcases cleanLocationsStep_cases acc loc with he | ⟨he, -⟩
    · rw [he]
      obtain ⟨t, ht, hsub⟩ := ih acc
      exact ⟨t, ht, hsub.cons _⟩
    · rw [he]
      obtain ⟨t, ht, hsub⟩ := ih (acc.1 ++ [jsTrim loc], acc.2 ++ [jsToLower (jsTrim loc)])
      refine ⟨jsTrim loc :: t, ?_, hsub.cons₂ _⟩
      rw [ht]
      simp

/-- C10: for every input list, `cleanLocations` re-validates and
deduplicates independently of the extractor: no two output entries are
equal after lowercasing (entries are already trimmed), no entry matches
the bare coordinate regex, none is shorter than 2 characters, none
contains route/scenic/stop/stops/waypoint as a standalone word, none
trips the invalid-word space checks, and the output is a sublist of the
trimmed input (first occurrence wins, keeping position and spelling). -/
theorem cleanLocations_invariants (locations : List String) :
    List.Pairwise (fun a b => jsToLower a ≠ jsToLower b) (cleanLocations locations) ∧
    (∀ x ∈ cleanLocations locations,
      jsTrim x = x ∧ matchCoord x = false ∧ 2 ≤ x.length ∧ hasWordToken x = false ∧
        invalidLocationWords.all (fun w =>
          !(jsToLower x == w || strContains (jsToLower x) (" " ++ w) ||
            strStartsWith (jsToLower x) (w ++ " "))) = true) ∧
    (cleanLocations locations).Sublist (locations.map jsTrim) := by
  obtain ⟨hmap, hpw, hok⟩ := cleanLocations_fold_invariant locations ([], [])
    rfl (List.Pairwise.nil) (by intro x hx; cases hx)
  obtain ⟨t, ht, hsub⟩ := cleanLocations_fold_sublist locations ([], [])
  refine ⟨hpw, ?_, ?_⟩
  · intro x hx
    obtain ⟨h1, h2, h3, _, h5, h6⟩ := hok x hx
    exact ⟨h1, h2, h3, h5, h6⟩
  · unfold cleanLocations
    rw [ht]
    simpa using hsub

/-- C10 witness: a concrete adversarial input — duplicates differing in
case and whitespace, a bare coordinate, a one-character string and a
stop-word phrase are all scrubbed. -/
theorem cleanLocations_invariants_witness :
    cleanLocations ["  Paris ", "paris", "3, 4", "Route 66", "x", "Big Sur"]
        = ["Paris", "Big Sur"] ∧
    List.Pairwise (fun a b => jsToLower a ≠ jsToLower b)
      (cleanLocations ["  Paris ", "paris", "3, 4", "Route 66", "x", "Big Sur"]) ∧
    (cleanLocations ["  Paris ", "paris", "3, 4", "Route 66", "x", "Big Sur"]).Sublist
      (["  Paris ", "paris", "3, 4", "Route 66", "x", "Big Sur"].map jsTrim) := by
  have h := cleanLocations_invariants ["  Paris ", "paris", "3, 4", "Route 66", "x", "Big Sur"]
  exact ⟨rfl, h.1, h.2.2⟩

end NomadSync
